import Mathlib

/-!
Shallow embedding of VAL1S Module 01 (Inventory + Dupe Detection).

The module walks a directory tree, building a file inventory and a
size-keyed bucket index, then detects duplicate files by hashing the
members of every size bucket with at least two paths, with an
inode-keyed cache intended to avoid re-hashing hardlinks.

Modelling conventions:
- a filesystem path is a list of components below the root anchor;
- Python dicts (insertion ordered) are association lists, with helper
  functions mirroring dict lookup, assignment and setdefault-append;
- the module-level globals form an explicit state record MState;
- fallible OS primitives (stat, open/read, resolve) are Option-valued
  fields of an FS record, none standing for the OSError family that the
  source catches;
- the cryptographic digest is a parameter H applied to the concatenation
  of the chunks read, mirroring the incremental hashlib update calls;
- the state record carries two ghost fields, hasherCalls (the log of
  hash_file invocations, as the spec suggests instrumenting) and
  warnings (the log of logging.warning calls in the walk and in
  duplicate detection).

Faithfulness notes (checked against the source):
- the module initialiser defines the dicts size_index, hash_index and
  inode_hash but never defines the list inventory_data, although
  walk_and_inventory appends to it; the first accepted regular file
  therefore raises an uncaught NameError, modelled by PyErr.nameError;
- inode_hash.get returns None both for an absent key and for a key
  stored with value None, modelled by pyGet.
-/

namespace VAL1S

/-- A filesystem path: its components below the root anchor. -/
abbrev FPath := List String

/-- Render a path in the usual absolute string form. -/
def pathStr (p : FPath) : String :=
  p.foldl (fun acc c => acc ++ "/" ++ c) ""

/-- Python dict lookup on an association list: first binding wins. -/
def dget {α β : Type} [DecidableEq α] : List (α × β) → α → Option β
  | [], _ => none
  | (k1, v) :: t, k => if k1 = k then some v else dget t k

/-- Python dict assignment: update the binding in place, else append. -/
def dset {α β : Type} [DecidableEq α] : List (α × β) → α → β → List (α × β)
  | [], k, v => [(k, v)]
  | (k1, v1) :: t, k, v => if k1 = k then (k1, v) :: t else (k1, v1) :: dset t k v

/-- Python d.setdefault(k, []).append(p) on an association list. -/
def dAppend {α : Type} [DecidableEq α] : List (α × List String) → α → String → List (α × List String)
  | [], k, p => [(k, [p])]
  | (k1, ps) :: t, k, p =>
      if k1 = k then (k1, ps ++ [p]) :: t else (k1, ps) :: dAppend t k p

/-- Python inode_hash.get(key): returns None for an absent key and also
for a key whose stored value is None, so the two are conflated. -/
def pyGet (m : List ((Nat × Nat) × Option String)) (k : Nat × Nat) : Option String :=
  (dget m k).bind id

/-- Result of os.stat: the fields the module reads. S_ISREG(st_mode) is
abstracted to the boolean isReg. -/
structure Stat where
  isReg : Bool
  size : Nat
  mtime : Int
  dev : Nat
  ino : Nat
deriving DecidableEq

/-- The fallible OS primitives the module calls. none models the
OSError family (permission denied, vanished entry, not a file, IO
error) that the source catches at each call site. -/
structure FS where
  isSymlink : FPath → Bool
  resolve : FPath → Option FPath
  stat : Bool → String → Option Stat
  read : String → Option (List Nat)

/-- The module configuration globals. -/
structure Config where
  followSymlinks : Bool
  skipNames : List String
  skipExts : List String
  skipAbs : List FPath

/-- Module constant SKIP_ABS. -/
def SKIP_ABS : List FPath :=
  [["proc"], ["sys"], ["dev"], ["run"], ["tmp"], ["var", "lib"], ["var", "run"],
   ["var", "cache"], ["System"], ["Library"]]

/-- Module constant SKIP_NAMES. -/
def SKIP_NAMES : List String := [".git", ".svn", ".DS_Store", "node_modules", "__pycache__"]

/-- Module constant SKIP_EXTS. -/
def SKIP_EXTS : List String := [".tmp", ".swp"]

/-- Module constant READ_CHUNK (1 MiB). -/
def READ_CHUNK : Nat := 1024 * 1024

/-- The module defaults as a Config value. -/
def defaultCfg : Config :=
  { followSymlinks := false, skipNames := SKIP_NAMES, skipExts := SKIP_EXTS,
    skipAbs := SKIP_ABS }

/-- The module-level mutable globals. inventory_data is an Option
because the source never initialises that global: it is none until some
assignment would define it (no code in the module ever does), and
appending through it raises NameError. hasherCalls and warnings are
ghost instrumentation logs. -/
structure MState where
  inventory_data : Option (List (String × Nat × Int))
  size_index : List (Nat × List String)
  hash_index : List (String × List String)
  inode_hash : List ((Nat × Nat) × Option String)
  hasherCalls : List String
  warnings : List String
deriving DecidableEq

/-- The state right after module import: the three dicts exist and are
empty, inventory_data was never defined. -/
def initState : MState :=
  { inventory_data := none, size_index := [], hash_index := [],
    inode_hash := [], hasherCalls := [], warnings := [] }

/-- Python Path.name: the final component. -/
def pathName (p : FPath) : String := (p.getLast?).getD ""

/-- Index of the last dot in a list of characters, if any. -/
def lastDotAux : List Char → Nat → Option Nat → Option Nat
  | [], _, best => best
  | c :: rest, i, best => lastDotAux rest (i + 1) (if c = '.' then some i else best)

/-- Python Path.suffix: the part of the final component from its last
dot, empty when the dot is leading, trailing or absent. -/
def pathSuffix (p : FPath) : String :=
  let n := pathName p
  let cs := n.toList
  match lastDotAux cs 0 none with
  | none => ""
  | some i => if 0 < i && i + 1 < cs.length then String.mk (cs.drop i) else ""

/-- Lowercase one character (ASCII range, which covers every extension
the module compares). -/
def charLower (c : Char) : Char :=
  if 65 ≤ c.toNat && c.toNat ≤ 90 then Char.ofNat (c.toNat + 32) else c

/-- Python str.lower restricted to ASCII letters. -/
def strLower (x : String) : String := String.mk (x.toList.map charLower)

/-- Python PurePath.is_relative_to for absolute paths: component-wise
containment, true exactly when the first argument is a leading run of
components of the second. -/
def compPre : FPath → FPath → Bool
  | [], _ => true
  | _ :: _, [] => false
  | a :: as, b :: bs => a == b && compPre as bs

/-- Source function is_skippable: symlink policy check, then basename
and lowercased extension check, then containment of the resolved path
in some excluded absolute root. A resolution failure is the caught
exception branch and resolves to skip. -/
def is_skippable (cfg : Config) (fs : FS) (p : FPath) : Bool :=
  if !cfg.followSymlinks && fs.isSymlink p then
    true
  else if cfg.skipNames.contains (pathName p) || cfg.skipExts.contains (strLower (pathSuffix p)) then
    true
  else
    match fs.resolve p with
    | none => true
    | some rp => cfg.skipAbs.any (fun r => compPre r rp)

/-- The chunked read loop of hash_file: each iteration reads at most
chunk bytes and stops at the first empty read, so a zero chunk stops at
once. The fuel argument makes the recursion structural; when the chunk
is positive every iteration consumes at least one byte, so fuel
exceeding the content length never runs out. -/
def readGo (chunk : Nat) : Nat → List Nat → List (List Nat)
  | 0, _ => []
  | fuel + 1, bs =>
      if chunk = 0 then []
      else if bs.isEmpty then []
      else bs.take chunk :: readGo chunk fuel (bs.drop chunk)

/-- Source function hash_file: returns the hex digest of the file
content folded chunk by chunk, or none when opening or reading fails
(the caught FileNotFoundError, PermissionError, IsADirectoryError and
OSError branch). The running hashlib state over successive update calls
is the digest H of the concatenation of the chunks. -/
def hash_file (H : List Nat → String) (fs : FS) (path : String) (chunk_size : Nat) :
    Option String :=
  match fs.read path with
  | none => none
  | some content => some (H (readGo chunk_size (content.length + 1) content).flatten)

/-- Uncaught Python exceptions the model distinguishes. -/
inductive PyErr where
  | nameError
deriving DecidableEq

/-- The body of the filenames loop of walk_and_inventory for one
directory entry: filter, stat (warn and skip on failure), keep regular
files only, then append the inventory row, the size bucket entry and
the inode pre-seed. The inventory append reads the undefined global
inventory_data, so in the state produced by module import it raises
NameError before size_index or inode_hash is touched. -/
def processName (cfg : Config) (fs : FS) (dpath : FPath) (n : String) (s : MState) :
    MState × Option PyErr :=
  let p := dpath ++ [n]
  if is_skippable cfg fs p then (s, none)
  else
    match fs.stat cfg.followSymlinks (pathStr p) with
    | none => ({ s with warnings := s.warnings ++ [pathStr p] }, none)
    | some st =>
      if !st.isReg then (s, none)
      else
        match s.inventory_data with
        | none => (s, some PyErr.nameError)
        | some inv =>
            ({ s with
                inventory_data := some (inv ++ [(pathStr p, st.size, st.mtime)]),
                size_index := dAppend s.size_index st.size (pathStr p),
                inode_hash := dset s.inode_hash (st.dev, st.ino) none }, none)

/-- The filenames loop of one os.walk iteration, stopping at the first
uncaught exception. -/
def walkFiles (cfg : Config) (fs : FS) (dpath : FPath) :
    List String → MState → MState × Option PyErr
  | [], s => (s, none)
  | n :: rest, s =>
      match processName cfg fs dpath n s with
      | (s1, some e) => (s1, some e)
      | (s1, none) => walkFiles cfg fs dpath rest s1

mutual

/-- A directory tree as os.walk observes it: named subdirectories and
the names of the non-directory entries. -/
inductive FTree where
  | node : FTreeList → List String → FTree

/-- The subdirectory list of a directory tree. -/
inductive FTreeList where
  | nil : FTreeList
  | cons : String → FTree → FTreeList → FTreeList

end

mutual

/-- One os.walk iteration at dpath followed by the descent into the
kept subdirectories: the filenames loop runs first (top-down order),
then the children. The source prunes dirnames in place before the
filenames loop and descends into the pruned list afterwards; since
is_skippable is pure here, testing each child at descent time yields
the same traversal. -/
def walkNode (cfg : Config) (fs : FS) (dpath : FPath) :
    FTree → MState → MState × Option PyErr
  | .node dirs files, s =>
      match walkFiles cfg fs dpath files s with
      | (s1, some e) => (s1, some e)
      | (s1, none) => walkKept cfg fs dpath dirs s1

/-- Descent into the subdirectories that survive the dirnames pruning
loop, stopping at the first uncaught exception. -/
def walkKept (cfg : Config) (fs : FS) (dpath : FPath) :
    FTreeList → MState → MState × Option PyErr
  | .nil, s => (s, none)
  | .cons d t rest, s =>
      if is_skippable cfg fs (dpath ++ [d]) then walkKept cfg fs dpath rest s
      else
        match walkNode cfg fs (dpath ++ [d]) t s with
        | (s1, some e) => (s1, some e)
        | (s1, none) => walkKept cfg fs dpath rest s1

end

/-- What the scan root names on disk: nothing, a non-directory, or a
directory tree. -/
inductive RootFS where
  | missing
  | notDir
  | dir : FTree → RootFS

/-- Source function walk_and_inventory. os.walk run on a missing root
or on a non-directory yields no triple at all (its scandir error is
swallowed by the default onerror), so the walk silently does nothing in
those cases. -/
def walk_and_inventory (cfg : Config) (fs : FS) (root : FPath) (rt : RootFS) (s : MState) :
    MState × Option PyErr :=
  match rt with
  | .dir t => walkNode cfg fs root t s
  | _ => (s, none)

/-- The body of the inner loop of detect_duplicates for one candidate
path: stat (warn and skip on failure), look the inode key up in the
cache, re-hash when the lookup yields None (absent key or stored None),
store the result, skip falsy digests, else append the path to the group
of its digest. The ghost hasherCalls log records exactly the hash_file
invocations. -/
def processPath (cfg : Config) (fs : FS) (H : List Nat → String) (chunk : Nat)
    (s : MState) (p : String) : MState :=
  match fs.stat cfg.followSymlinks p with
  | none => { s with warnings := s.warnings ++ [p] }
  | some st =>
      let k := (st.dev, st.ino)
      match pyGet s.inode_hash k with
      | some d =>
          if d = "" then s
          else { s with hash_index := dAppend s.hash_index d p }
      | none =>
          let dg := hash_file H fs p chunk
          let s1 := { s with inode_hash := dset s.inode_hash k dg,
                             hasherCalls := s.hasherCalls ++ [p] }
          match dg with
          | none => s1
          | some d =>
              if d = "" then s1
              else { s1 with hash_index := dAppend s1.hash_index d p }

/-- One size bucket of detect_duplicates: buckets with fewer than two
paths are skipped outright, the others have each path processed. -/
def processBucket (cfg : Config) (fs : FS) (H : List Nat → String) (chunk : Nat)
    (s : MState) (b : Nat × List String) : MState :=
  if b.2.length < 2 then s
  else b.2.foldl (processPath cfg fs H chunk) s

/-- The two nested loops of detect_duplicates over the size index. -/
def detectAccum (cfg : Config) (fs : FS) (H : List Nat → String) (chunk : Nat)
    (s : MState) : MState :=
  s.size_index.foldl (processBucket cfg fs H chunk) s

/-- Source function detect_duplicates: the candidate loops followed by
the final deletion of every digest group with fewer than two members. -/
def detect_duplicates (cfg : Config) (fs : FS) (H : List Nat → String) (chunk : Nat)
    (s : MState) : MState :=
  let s1 := detectAccum cfg fs H chunk s
  { s1 with hash_index := s1.hash_index.filter (fun g => decide (2 ≤ g.2.length)) }

/-- Outcome of the module entry point. -/
inductive ScanOutcome where
  | exited : Nat → MState → ScanOutcome
  | crashed : PyErr → MState → ScanOutcome
  | finished : MState → ScanOutcome
deriving DecidableEq

/-- The scan flow of the module entry point (default flags): validate
that the target exists and is a directory, exiting with status 2 before
any scanning otherwise, then walk and, when the walk returns normally,
detect duplicates. An uncaught exception in the walk crashes the run. -/
def mainScan (cfg : Config) (fs : FS) (H : List Nat → String) (chunk : Nat)
    (root : FPath) (rt : RootFS) : ScanOutcome :=
  match rt with
  | .missing => .exited 2 initState
  | .notDir => .exited 2 initState
  | .dir t =>
      match walkNode cfg fs root t initState with
      | (s, some e) => .crashed e s
      | (s, none) => .finished (detect_duplicates cfg fs H chunk s)

/-- The inode key of a path as detect_duplicates computes it. -/
def statKey (cfg : Config) (fs : FS) (p : String) : Option (Nat × Nat) :=
  (fs.stat cfg.followSymlinks p).map (fun st => (st.dev, st.ino))

/-- Whether one candidate path would survive digest resolution: its
stat succeeds and its own hash is a truthy digest. -/
def hashable (cfg : Config) (fs : FS) (H : List Nat → String) (chunk : Nat)
    (p : String) : Bool :=
  match fs.stat cfg.followSymlinks p, hash_file H fs p chunk with
  | some _, some d => d != ""
  | _, _ => false

/-- The size buckets with at least two paths. -/
def bigBuckets (s : MState) : List (Nat × List String) :=
  s.size_index.filter (fun b => decide (2 ≤ b.2.length))

/-- The candidate paths of a run, in processing order. -/
def bigCand (s : MState) : List String :=
  ((bigBuckets s).map Prod.snd).flatten

/-- Membership of a path in the size bucket keyed sz. -/
def inBucket (s : MState) (p : String) (sz : Nat) : Prop :=
  ∃ ps, (sz, ps) ∈ s.size_index ∧ p ∈ ps

/-! ### Dictionary lemmas -/

lemma dget_dset_self {α β : Type} [DecidableEq α] (m : List (α × β)) (k : α) (v : β) :
    dget (dset m k v) k = some v := by
  induction m with
  | nil => simp [dset, dget]
  | cons kv t ih =>
      obtain ⟨k1, v1⟩ := kv
      by_cases h : k1 = k <;> simp [dset, dget, h, ih]

lemma dget_dset_ne {α β : Type} [DecidableEq α] (m : List (α × β)) (k k1 : α) (v : β)
    (h : k1 ≠ k) : dget (dset m k v) k1 = dget m k1 := by
  induction m with
  | nil => simp only [dset, dget, if_neg (Ne.symm h)]
  | cons kv t ih =>
      obtain ⟨k0, v0⟩ := kv
      by_cases h0 : k0 = k
      · subst h0
        have hne : ¬ k0 = k1 := fun hh => h hh.symm
        simp only [dset, if_pos rfl, dget, if_neg hne]
      · simp only [dset, if_neg h0]
        by_cases h1 : k0 = k1 <;> simp [dget, h1, ih]

lemma compPre_iff (r q : FPath) : compPre r q = true ↔ ∃ t, q = r ++ t := by
  induction r generalizing q with
  | nil => simp [compPre]
  | cons a as ih =>
      cases q with
      | nil => simp [compPre]
      | cons b bs =>
          simp only [compPre, Bool.and_eq_true, beq_iff_eq, ih, List.cons_append,
            List.cons.injEq]
          constructor
          · rintro ⟨hab, t, ht⟩
            exact ⟨t, hab.symm, ht⟩
          · rintro ⟨t, hba, ht⟩
            exact ⟨hba.symm, t, ht⟩

lemma pyGet_eq_some {m : List ((Nat × Nat) × Option String)} {k : Nat × Nat} {d : String}
    (hp : pyGet m k = some d) : dget m k = some (some d) := by
  unfold pyGet at hp
  cases h : dget m k with
  | none => rw [h] at hp; simp at hp
  | some v => rw [h] at hp; simp at hp; rw [hp]

lemma dAppend_mem_cases {α : Type} [DecidableEq α] {m : List (α × List String)}
    {d d1 : α} {q : String} {qs : List String} (h : (d1, qs) ∈ dAppend m d q) :
    (d1, qs) ∈ m ∨ (d1 = d ∧ qs = [q]) ∨ (∃ qs0, (d1, qs0) ∈ m ∧ d1 = d ∧ qs = qs0 ++ [q]) := by
  induction m with
  | nil =>
      simp only [dAppend, List.mem_singleton, Prod.mk.injEq] at h
      exact Or.inr (Or.inl h)
  | cons e t ih =>
      obtain ⟨k1, ps⟩ := e
      by_cases hk : k1 = d
      · subst hk
        have hred : dAppend ((k1, ps) :: t) k1 q = (k1, ps ++ [q]) :: t := by
          simp [dAppend]
        rw [hred] at h
        rcases List.mem_cons.mp h with h2 | h2
        · obtain ⟨e1, e2⟩ := Prod.mk.injEq .. ▸ h2
          exact Or.inr (Or.inr ⟨ps, by rw [e1]; exact List.mem_cons_self _ _, e1, e2⟩)
        · exact Or.inl (List.mem_cons_of_mem _ h2)
      · have hred : dAppend ((k1, ps) :: t) d q = (k1, ps) :: dAppend t d q := by
          simp [dAppend, hk]
        rw [hred] at h
        rcases List.mem_cons.mp h with h2 | h2
        · obtain ⟨e1, e2⟩ := Prod.mk.injEq .. ▸ h2
          exact Or.inl (List.mem_cons.mpr (Or.inl (by rw [e1, e2])))
        · rcases ih h2 with h3 | h3 | ⟨qs0, hqs0, hd1, hqs⟩
          · exact Or.inl (List.mem_cons_of_mem _ h3)
          · exact Or.inr (Or.inl h3)
          · exact Or.inr (Or.inr ⟨qs0, List.mem_cons_of_mem _ hqs0, hd1, hqs⟩)

lemma dAppend_extends {α : Type} [DecidableEq α] {m : List (α × List String)}
    {d0 : α} {qs : List String} (hmem : (d0, qs) ∈ m) (d : α) (q : String) :
    ∃ r, (d0, qs ++ r) ∈ dAppend m d q := by
  induction m with
  | nil => simp at hmem
  | cons e t ih =>
      obtain ⟨k1, ps⟩ := e
      by_cases hk : k1 = d
      · subst hk
        rcases List.mem_cons.mp hmem with he | ht
        · obtain ⟨h1, h2⟩ := Prod.mk.injEq .. ▸ he
          subst h1; subst h2
          exact ⟨[q], by simp [dAppend]⟩
        · exact ⟨[], by simpa [dAppend] using Or.inr ht⟩
      · rcases List.mem_cons.mp hmem with he | ht
        · obtain ⟨h1, h2⟩ := Prod.mk.injEq .. ▸ he
          subst h1; subst h2
          exact ⟨[], by simp [dAppend, if_neg hk]⟩
        · obtain ⟨r, hr⟩ := ih ht
          exact ⟨r, by simp [dAppend, if_neg hk, hr]⟩

/-- All grouped paths of a digest index, group by group. -/
def allPaths (m : List (String × List String)) : List String :=
  (m.map Prod.snd).flatten

lemma mem_allPaths {m : List (String × List String)} {p : String} :
    p ∈ allPaths m ↔ ∃ d qs, (d, qs) ∈ m ∧ p ∈ qs := by
  unfold allPaths
  rw [List.mem_flatten]
  constructor
  · rintro ⟨l, hl, hp⟩
    rw [List.mem_map] at hl
    obtain ⟨⟨d, qs⟩, hmem, rfl⟩ := hl
    exact ⟨d, qs, hmem, hp⟩
  · rintro ⟨d, qs, hmem, hp⟩
    exact ⟨qs, List.mem_map.mpr ⟨(d, qs), hmem, rfl⟩, hp⟩

lemma allPaths_dAppend_perm (m : List (String × List String)) (d q : String) :
    (allPaths (dAppend m d q)).Perm (allPaths m ++ [q]) := by
  induction m with
  | nil => simp [dAppend, allPaths]
  | cons e t ih =>
      obtain ⟨d1, ps⟩ := e
      by_cases h : d1 = d
      · simp only [dAppend, if_pos h, allPaths, List.map_cons, List.flatten_cons]
        rw [List.append_assoc, List.append_assoc]
        exact List.Perm.append_left ps List.perm_append_comm
      · simp only [dAppend, if_neg h, allPaths, List.map_cons, List.flatten_cons] at ih ⊢
        rw [List.append_assoc]
        exact List.Perm.append_left ps ih

lemma flatten_mono {α : Type} {l1 l2 : List (List α)} (h : l1.Sublist l2) :
    l1.flatten.Sublist l2.flatten := by
  induction h with
  | slnil => exact List.Sublist.refl _
  | cons a _ ih => simpa using ih.trans (List.sublist_append_right a _)
  | cons₂ a _ ih => simpa using ih.append_left a

lemma allPaths_filter_sub (m : List (String × List String)) (pr : String × List String → Bool) :
    (allPaths (m.filter pr)).Sublist (allPaths m) :=
  flatten_mono ((List.filter_sublist m).map Prod.snd)

/-! ### Run invariants of detect_duplicates -/

/-- Hardlink coherence of the filesystem during one run: two paths with
the same inode key name the same data, so reading them gives the same
bytes (the spec glossary: hardlinks are byte-identical by construction). -/
def InodeCoherent (cfg : Config) (fs : FS) : Prop :=
  ∀ p q k, statKey cfg fs p = some k → statKey cfg fs q = some k → fs.read p = fs.read q

/-- The inode cache is correct: any stored value equals the digest that
hashing any path of that inode key would produce. -/
def CacheOK (cfg : Config) (fs : FS) (H : List Nat → String) (chunk : Nat)
    (m : List ((Nat × Nat) × Option String)) : Prop :=
  ∀ k v, dget m k = some v → ∀ q, statKey cfg fs q = some k → v = hash_file H fs q chunk

/-- Every group of the digest index is keyed by a truthy digest and
holds only paths whose stat succeeds and whose own content hashes to
exactly the group key. -/
def GroupsOK (cfg : Config) (fs : FS) (H : List Nat → String) (chunk : Nat)
    (hi : List (String × List String)) : Prop :=
  ∀ d qs, (d, qs) ∈ hi →
    d ≠ "" ∧ ∀ q ∈ qs, (statKey cfg fs q).isSome ∧ hash_file H fs q chunk = some d

lemma hash_congr (fs : FS) (H : List Nat → String) (chunk : Nat) {q1 q2 : String}
    (h : fs.read q1 = fs.read q2) :
    hash_file H fs q1 chunk = hash_file H fs q2 chunk := by
  unfold hash_file
  rw [h]

lemma GroupsOK_dAppend {cfg : Config} {fs : FS} {H : List Nat → String} {chunk : Nat}
    {hi : List (String × List String)} {d q : String}
    (hG : GroupsOK cfg fs H chunk hi)
    (hstatq : (statKey cfg fs q).isSome)
    (hdg : hash_file H fs q chunk = some d) (hd : d ≠ "") :
    GroupsOK cfg fs H chunk (dAppend hi d q) := by
  intro d1 qs hmem
  rcases dAppend_mem_cases hmem with hin | ⟨rfl, rfl⟩ | ⟨qs0, hqs0, rfl, rfl⟩
  · exact hG _ _ hin
  · refine ⟨hd, ?_⟩
    intro q2 hq2
    rw [List.mem_singleton] at hq2
    subst hq2
    exact ⟨hstatq, hdg⟩
  · obtain ⟨hd1, hmem0⟩ := hG _ _ hqs0
    refine ⟨hd1, ?_⟩
    intro q2 hq2
    rcases List.mem_append.mp hq2 with h2 | h2
    · exact hmem0 _ h2
    · rw [List.mem_singleton] at h2
      subst h2
      exact ⟨hstatq, hdg⟩

/-- One step of the candidate loop preserves cache correctness and
group correctness, and the grouped paths gain exactly the processed
path when (and only when) its digest resolution succeeds. -/
lemma processPath_inv (cfg : Config) (fs : FS) (H : List Nat → String) (chunk : Nat)
    (hcoh : InodeCoherent cfg fs) (s1 : MState) (q : String)
    (hC : CacheOK cfg fs H chunk s1.inode_hash)
    (hG : GroupsOK cfg fs H chunk s1.hash_index) :
    CacheOK cfg fs H chunk (processPath cfg fs H chunk s1 q).inode_hash ∧
    GroupsOK cfg fs H chunk (processPath cfg fs H chunk s1 q).hash_index ∧
    (allPaths (processPath cfg fs H chunk s1 q).hash_index).Perm
      (allPaths s1.hash_index ++
        (if hashable cfg fs H chunk q then [q] else [])) := by
  cases hstat : fs.stat cfg.followSymlinks q with
  | none =>
      have hhq : hashable cfg fs H chunk q = false := by
        simp [hashable, hstat]
      simp only [processPath, hstat, hhq, Bool.false_eq_true, if_false, List.append_nil]
      exact ⟨hC, hG, List.Perm.refl _⟩
  | some st =>
      have hkey : statKey cfg fs q = some (st.dev, st.ino) := by
        simp [statKey, hstat]
      cases hget : pyGet s1.inode_hash (st.dev, st.ino) with
      | some d =>
          have hdg : hash_file H fs q chunk = some d :=
            (hC _ _ (pyGet_eq_some hget) q hkey).symm
          by_cases hd : d = ""
          · have hhq : hashable cfg fs H chunk q = false := by
              simp [hashable, hstat, hdg, hd]
            simp only [processPath, hstat, hget, hd, if_true, hhq, Bool.false_eq_true,
              if_false, List.append_nil]
            exact ⟨hC, hG, List.Perm.refl _⟩
          · have hhq : hashable cfg fs H chunk q = true := by
              simp [hashable, hstat, hdg, hd]
            have hstatq : (statKey cfg fs q).isSome := by simp [hkey]
            simp only [processPath, hstat, hget, if_neg hd, hhq, if_true]
            exact ⟨hC, GroupsOK_dAppend hG hstatq hdg hd,
              allPaths_dAppend_perm s1.hash_index d q⟩
      | none =>
          have hC2 : CacheOK cfg fs H chunk
              (dset s1.inode_hash (st.dev, st.ino) (hash_file H fs q chunk)) := by
            intro k1 v hv q2 hq2
            by_cases hk : k1 = (st.dev, st.ino)
            · subst hk
              rw [dget_dset_self] at hv
              have hv2 : v = hash_file H fs q chunk := (Option.some.inj hv).symm
              rw [hv2]
              exact hash_congr fs H chunk (hcoh q q2 _ hkey hq2)
            · rw [dget_dset_ne _ _ _ _ hk] at hv
              exact hC _ _ hv _ hq2
          cases hdg : hash_file H fs q chunk with
          | none =>
              have hhq : hashable cfg fs H chunk q = false := by
                simp [hashable, hstat, hdg]
              rw [hdg] at hC2
              simp only [processPath, hstat, hget, hdg, hhq, Bool.false_eq_true, if_false,
                List.append_nil]
              exact ⟨hC2, hG, List.Perm.refl _⟩
          | some d =>
              rw [hdg] at hC2
              by_cases hd : d = ""
              · subst hd
                have hhq : hashable cfg fs H chunk q = false := by
                  simp [hashable, hstat, hdg]
                simp only [processPath, hstat, hget, hdg, hhq,
                  Bool.false_eq_true, if_false, List.append_nil]
                exact ⟨hC2, hG, List.Perm.refl _⟩
              · have hhq : hashable cfg fs H chunk q = true := by
                  simp [hashable, hstat, hdg, hd]
                have hstatq : (statKey cfg fs q).isSome := by simp [hkey]
                simp only [processPath, hstat, hget, hdg, if_neg hd, hhq, if_true]
                exact ⟨hC2, GroupsOK_dAppend hG hstatq hdg hd,
                  allPaths_dAppend_perm s1.hash_index d q⟩

/-- The candidate loop over one bucket list preserves the invariants,
and the grouped paths grow by exactly the processed paths that resolve
to a truthy digest. -/
lemma foldl_paths_inv (cfg : Config) (fs : FS) (H : List Nat → String) (chunk : Nat)
    (hcoh : InodeCoherent cfg fs) (L : List String) (s1 : MState)
    (hC : CacheOK cfg fs H chunk s1.inode_hash)
    (hG : GroupsOK cfg fs H chunk s1.hash_index) :
    CacheOK cfg fs H chunk ((L.foldl (processPath cfg fs H chunk) s1).inode_hash) ∧
    GroupsOK cfg fs H chunk ((L.foldl (processPath cfg fs H chunk) s1).hash_index) ∧
    (allPaths ((L.foldl (processPath cfg fs H chunk) s1).hash_index)).Perm
      (allPaths s1.hash_index ++ L.filter (hashable cfg fs H chunk)) := by
  induction L generalizing s1 with
  | nil =>
      simp only [List.foldl_nil, List.filter_nil, List.append_nil]
      exact ⟨hC, hG, List.Perm.refl _⟩
  | cons q L ih =>
      obtain ⟨hC1, hG1, hP1⟩ := processPath_inv cfg fs H chunk hcoh s1 q hC hG
      obtain ⟨hC2, hG2, hP2⟩ := ih (processPath cfg fs H chunk s1 q) hC1 hG1
      rw [List.foldl_cons]
      refine ⟨hC2, hG2, ?_⟩
      refine hP2.trans ((hP1.append_right (L.filter (hashable cfg fs H chunk))).trans ?_)
      rw [List.append_assoc]
      cases hq : hashable cfg fs H chunk q with
      | false =>
          rw [List.filter_cons_of_neg (by simp [hq])]
          simp only [hq, Bool.false_eq_true, if_false, List.nil_append]
          exact List.Perm.refl _
      | true =>
          rw [List.filter_cons_of_pos (by simp [hq])]
          simp only [hq, if_true, List.singleton_append]
          exact List.Perm.refl _

/-- The candidates of a given bucket list: the paths of its buckets
with at least two members, in order. -/
def bigOf (bs : List (Nat × List String)) : List String :=
  ((bs.filter (fun b => decide (2 ≤ b.2.length))).map Prod.snd).flatten

lemma bigCand_eq_bigOf (s : MState) : bigCand s = bigOf s.size_index := rfl

/-- The bucket loop preserves the invariants, and the grouped paths
grow by exactly the candidates of buckets with two or more members
whose digest resolution succeeds. -/
lemma foldl_buckets_inv (cfg : Config) (fs : FS) (H : List Nat → String) (chunk : Nat)
    (hcoh : InodeCoherent cfg fs) (bs : List (Nat × List String)) (s1 : MState)
    (hC : CacheOK cfg fs H chunk s1.inode_hash)
    (hG : GroupsOK cfg fs H chunk s1.hash_index) :
    CacheOK cfg fs H chunk ((bs.foldl (processBucket cfg fs H chunk) s1).inode_hash) ∧
    GroupsOK cfg fs H chunk ((bs.foldl (processBucket cfg fs H chunk) s1).hash_index) ∧
    (allPaths ((bs.foldl (processBucket cfg fs H chunk) s1).hash_index)).Perm
      (allPaths s1.hash_index ++ (bigOf bs).filter (hashable cfg fs H chunk)) := by
  induction bs generalizing s1 with
  | nil =>
      simp only [List.foldl_nil, bigOf, List.filter_nil, List.map_nil, List.flatten_nil,
        List.append_nil]
      exact ⟨hC, hG, List.Perm.refl _⟩
  | cons b bs ih =>
      rw [List.foldl_cons]
      by_cases hlen : b.2.length < 2
      · have hb : processBucket cfg fs H chunk s1 b = s1 := by
          simp [processBucket, hlen]
        have hbig : bigOf (b :: bs) = bigOf bs := by
          have h2 : ¬ (2 ≤ b.2.length) := not_le.mpr hlen
          simp [bigOf, List.filter_cons, h2]
        rw [hb, hbig]
        exact ih s1 hC hG
      · have h2 : 2 ≤ b.2.length := not_lt.mp hlen
        have hb : processBucket cfg fs H chunk s1 b
            = b.2.foldl (processPath cfg fs H chunk) s1 := by
          simp [processBucket, hlen]
        rw [hb]
        obtain ⟨hC1, hG1, hP1⟩ := foldl_paths_inv cfg fs H chunk hcoh b.2 s1 hC hG
        obtain ⟨hC2, hG2, hP2⟩ :=
          ih (b.2.foldl (processPath cfg fs H chunk) s1) hC1 hG1
        refine ⟨hC2, hG2, ?_⟩
        refine hP2.trans ((hP1.append_right _).trans ?_)
        rw [List.append_assoc]
        have hbig : bigOf (b :: bs) = b.2 ++ bigOf bs := by
          simp [bigOf, List.filter_cons, h2]
        rw [hbig, List.filter_append]

/-- The accumulation phase of detect_duplicates run from a fresh state:
the groups are correct and the grouped paths are exactly the candidates
whose digest resolution succeeds. -/
lemma detectAccum_inv (cfg : Config) (fs : FS) (H : List Nat → String) (chunk : Nat)
    (hcoh : InodeCoherent cfg fs) (s : MState)
    (hI : s.inode_hash = []) (hH : s.hash_index = []) :
    GroupsOK cfg fs H chunk ((detectAccum cfg fs H chunk s).hash_index) ∧
    (allPaths ((detectAccum cfg fs H chunk s).hash_index)).Perm
      ((bigCand s).filter (hashable cfg fs H chunk)) := by
  have hC : CacheOK cfg fs H chunk s.inode_hash := by
    rw [hI]
    intro k v hv
    simp [dget] at hv
  have hG : GroupsOK cfg fs H chunk s.hash_index := by
    rw [hH]
    intro d qs h
    simp at h
  obtain ⟨_, hG2, hP2⟩ := foldl_buckets_inv cfg fs H chunk hcoh s.size_index s hC hG
  have hnil : allPaths s.hash_index = [] := by rw [hH]; rfl
  rw [hnil, List.nil_append] at hP2
  exact ⟨hG2, by rw [bigCand_eq_bigOf]; exact hP2⟩

lemma detect_hash_index_eq (cfg : Config) (fs : FS) (H : List Nat → String) (chunk : Nat)
    (s : MState) :
    (detect_duplicates cfg fs H chunk s).hash_index
      = (detectAccum cfg fs H chunk s).hash_index.filter
          (fun g => decide (2 ≤ g.2.length)) := rfl

/-! ### C6: retained duplicate groups are well-formed -/

/-- C6: from a fresh run state, under hardlink coherence, with the
walk-produced buckets holding each path at most once, and with the
digest function not colliding across different bucket sizes in this
run, every retained group has at least two members, every member
carries the stat success and digest equal to the group key, members of
one group share one bucket size, and no path occurs in two groups (nor
twice in one). -/
theorem retained_groups_wellformed (cfg : Config) (fs : FS) (H : List Nat → String)
    (chunk : Nat) (s : MState)
    (hI : s.inode_hash = []) (hH : s.hash_index = [])
    (hcoh : InodeCoherent cfg fs)
    (hnodup : ((s.size_index.map Prod.snd).flatten).Nodup)
    (hsz : ∀ p sz q sz2, inBucket s p sz → inBucket s q sz2 →
        hash_file H fs p chunk = hash_file H fs q chunk →
        (hash_file H fs p chunk).isSome → sz = sz2) :
    (∀ d qs, (d, qs) ∈ (detect_duplicates cfg fs H chunk s).hash_index → 2 ≤ qs.length) ∧
    (∀ d qs, (d, qs) ∈ (detect_duplicates cfg fs H chunk s).hash_index →
        ∀ q ∈ qs, (statKey cfg fs q).isSome ∧ hash_file H fs q chunk = some d) ∧
    (∀ d qs, (d, qs) ∈ (detect_duplicates cfg fs H chunk s).hash_index →
        ∀ p1 p2 sz1 sz2, p1 ∈ qs → p2 ∈ qs → inBucket s p1 sz1 → inBucket s p2 sz2 →
          sz1 = sz2) ∧
    (allPaths ((detect_duplicates cfg fs H chunk s).hash_index)).Nodup := by
  obtain ⟨hG, hP⟩ := detectAccum_inv cfg fs H chunk hcoh s hI hH
  have hkeep : ∀ d qs, (d, qs) ∈ (detect_duplicates cfg fs H chunk s).hash_index →
      (d, qs) ∈ (detectAccum cfg fs H chunk s).hash_index ∧ 2 ≤ qs.length := by
    intro d qs h
    rw [detect_hash_index_eq, List.mem_filter] at h
    exact ⟨h.1, by simpa using h.2⟩
  refine ⟨?_, ?_, ?_, ?_⟩
  · intro d qs h
    exact (hkeep d qs h).2
  · intro d qs h
    exact (hG d qs (hkeep d qs h).1).2
  · intro d qs h p1 p2 sz1 sz2 hp1 hp2 hb1 hb2
    have h1 := (hG d qs (hkeep d qs h).1).2 p1 hp1
    have h2 := (hG d qs (hkeep d qs h).1).2 p2 hp2
    exact hsz p1 sz1 p2 sz2 hb1 hb2 (by rw [h1.2, h2.2]) (by rw [h1.2]; simp)
  · have hsub : (allPaths ((detect_duplicates cfg fs H chunk s).hash_index)).Sublist
        (allPaths ((detectAccum cfg fs H chunk s).hash_index)) := by
      rw [detect_hash_index_eq]
      exact allPaths_filter_sub _ _
    have hbigsub : (bigCand s).Sublist ((s.size_index.map Prod.snd).flatten) := by
      rw [bigCand_eq_bigOf]
      exact flatten_mono ((List.filter_sublist _).map Prod.snd)
    have hnodupBig : ((bigCand s).filter (hashable cfg fs H chunk)).Nodup :=
      (hnodup.sublist hbigsub).filter _
    exact (hP.symm.nodup hnodupBig).sublist hsub

/-! ### C7: a failed hash excludes the path and only the path -/

/-- C7: when reading a path (whose whole inode is unreadable, as
hardlinks share their data) fails, hash_file returns none rather than
raising, the path appears in no retained duplicate group, and every
other candidate whose digest resolution succeeds is still grouped. -/
theorem hash_failure_excluded_not_fatal (cfg : Config) (fs : FS) (H : List Nat → String)
    (chunk : Nat) (s : MState) (p : String)
    (hI : s.inode_hash = []) (hH : s.hash_index = [])
    (hcoh : InodeCoherent cfg fs)
    (hread : fs.read p = none) :
    hash_file H fs p chunk = none ∧
    (∀ d qs, (d, qs) ∈ (detect_duplicates cfg fs H chunk s).hash_index → p ∉ qs) ∧
    (∀ q, q ∈ bigCand s → hashable cfg fs H chunk q = true →
        ∃ d qs, (d, qs) ∈ (detectAccum cfg fs H chunk s).hash_index ∧ q ∈ qs) := by
  have h1 : hash_file H fs p chunk = none := by
    unfold hash_file
    rw [hread]
  obtain ⟨hG, hP⟩ := detectAccum_inv cfg fs H chunk hcoh s hI hH
  refine ⟨h1, ?_, ?_⟩
  · intro d qs h hpin
    have hmem : p ∈ allPaths ((detect_duplicates cfg fs H chunk s).hash_index) :=
      mem_allPaths.mpr ⟨d, qs, h, hpin⟩
    have hsub : (allPaths ((detect_duplicates cfg fs H chunk s).hash_index)).Sublist
        (allPaths ((detectAccum cfg fs H chunk s).hash_index)) := by
      rw [detect_hash_index_eq]
      exact allPaths_filter_sub _ _
    have hmem2 : p ∈ allPaths ((detectAccum cfg fs H chunk s).hash_index) :=
      hsub.subset hmem
    have hmem3 : p ∈ (bigCand s).filter (hashable cfg fs H chunk) :=
      hP.mem_iff.mp hmem2
    have hcontra := (List.mem_filter.mp hmem3).2
    cases hst : fs.stat cfg.followSymlinks p <;> simp [hashable, hst, h1] at hcontra
  · intro q hq hhq
    have hmem : q ∈ (bigCand s).filter (hashable cfg fs H chunk) :=
      List.mem_filter.mpr ⟨hq, hhq⟩
    have hmem2 : q ∈ allPaths ((detectAccum cfg fs H chunk s).hash_index) :=
      hP.mem_iff.mpr hmem
    exact mem_allPaths.mp hmem2

/-! ### C8: small buckets are skipped entirely -/

lemma dAppend_notMem {α : Type} [DecidableEq α] {m : List (α × List String)} {p q : String}
    (hm : ∀ k qs, (k, qs) ∈ m → p ∉ qs) (hpq : p ≠ q) (d : α) :
    ∀ k qs, (k, qs) ∈ dAppend m d q → p ∉ qs := by
  intro k qs h
  rcases dAppend_mem_cases h with h2 | ⟨_, rfl⟩ | ⟨qs0, hqs0, _, rfl⟩
  · exact hm _ _ h2
  · simp [hpq]
  · intro hin
    rcases List.mem_append.mp hin with h3 | h3
    · exact hm _ _ hqs0 h3
    · rw [List.mem_singleton] at h3
      exact hpq h3

lemma processPath_notTouched (cfg : Config) (fs : FS) (H : List Nat → String) (chunk : Nat)
    (s1 : MState) (q p : String) (hpq : p ≠ q)
    (hcalls : p ∉ s1.hasherCalls)
    (hgroups : ∀ k qs, (k, qs) ∈ s1.hash_index → p ∉ qs) :
    p ∉ (processPath cfg fs H chunk s1 q).hasherCalls ∧
    (∀ k qs, (k, qs) ∈ (processPath cfg fs H chunk s1 q).hash_index → p ∉ qs) := by
  cases hstat : fs.stat cfg.followSymlinks q with
  | none =>
      simp only [processPath, hstat]
      exact ⟨hcalls, hgroups⟩
  | some st =>
      cases hget : pyGet s1.inode_hash (st.dev, st.ino) with
      | some d =>
          by_cases hd : d = ""
          · subst hd
            simp only [processPath, hstat, hget]
            exact ⟨hcalls, hgroups⟩
          · simp only [processPath, hstat, hget, if_neg hd]
            exact ⟨hcalls, dAppend_notMem hgroups hpq d⟩
      | none =>
          have hcalls2 : p ∉ s1.hasherCalls ++ [q] := by
            simp [List.mem_append, hcalls, hpq]
          cases hdg : hash_file H fs q chunk with
          | none =>
              simp only [processPath, hstat, hget, hdg]
              exact ⟨hcalls2, hgroups⟩
          | some d =>
              by_cases hd : d = ""
              · subst hd
                simp only [processPath, hstat, hget, hdg]
                exact ⟨hcalls2, hgroups⟩
              · simp only [processPath, hstat, hget, hdg, if_neg hd]
                exact ⟨hcalls2, dAppend_notMem hgroups hpq d⟩

lemma foldl_paths_notTouched (cfg : Config) (fs : FS) (H : List Nat → String) (chunk : Nat)
    (L : List String) (s1 : MState) (p : String) (hL : p ∉ L)
    (hcalls : p ∉ s1.hasherCalls)
    (hgroups : ∀ k qs, (k, qs) ∈ s1.hash_index → p ∉ qs) :
    p ∉ (L.foldl (processPath cfg fs H chunk) s1).hasherCalls ∧
    (∀ k qs, (k, qs) ∈ (L.foldl (processPath cfg fs H chunk) s1).hash_index → p ∉ qs) := by
  induction L generalizing s1 with
  | nil => exact ⟨hcalls, hgroups⟩
  | cons q L ih =>
      have hpq : p ≠ q := fun h => hL (by rw [h]; exact List.mem_cons_self _ _)
      have hpL : p ∉ L := fun h => hL (List.mem_cons_of_mem _ h)
      obtain ⟨h1, h2⟩ := processPath_notTouched cfg fs H chunk s1 q p hpq hcalls hgroups
      rw [List.foldl_cons]
      exact ih (processPath cfg fs H chunk s1 q) hpL h1 h2

/-- C8: a path that lies only in size buckets with fewer than two
members is never hashed and never grouped by detect_duplicates. -/
theorem small_buckets_never_hashed_nor_grouped (cfg : Config) (fs : FS)
    (H : List Nat → String) (chunk : Nat) (s : MState) (p : String)
    (hsmall : ∀ sz ps, (sz, ps) ∈ s.size_index → p ∈ ps → ps.length < 2)
    (hcalls : p ∉ s.hasherCalls)
    (hgroups : ∀ d qs, (d, qs) ∈ s.hash_index → p ∉ qs) :
    p ∉ (detect_duplicates cfg fs H chunk s).hasherCalls ∧
    (∀ d qs, (d, qs) ∈ (detect_duplicates cfg fs H chunk s).hash_index → p ∉ qs) := by
  have main : ∀ (bs : List (Nat × List String)) (s1 : MState),
      (∀ b ∈ bs, p ∈ b.2 → b.2.length < 2) →
      p ∉ s1.hasherCalls → (∀ d qs, (d, qs) ∈ s1.hash_index → p ∉ qs) →
      p ∉ (bs.foldl (processBucket cfg fs H chunk) s1).hasherCalls ∧
      (∀ d qs, (d, qs) ∈ (bs.foldl (processBucket cfg fs H chunk) s1).hash_index →
        p ∉ qs) := by
    intro bs
    induction bs with
    | nil => intro s1 _ h1 h2; exact ⟨h1, h2⟩
    | cons b bs ih =>
        intro s1 hb h1 h2
        rw [List.foldl_cons]
        by_cases hlen : b.2.length < 2
        · have hstep : processBucket cfg fs H chunk s1 b = s1 := by
            simp [processBucket, hlen]
          rw [hstep]
          exact ih s1 (fun b2 hb2 => hb b2 (List.mem_cons_of_mem _ hb2)) h1 h2
        · have hnp : p ∉ b.2 := fun hin => hlen (hb b (List.mem_cons_self _ _) hin)
          have hstep : processBucket cfg fs H chunk s1 b
              = b.2.foldl (processPath cfg fs H chunk) s1 := by
            simp [processBucket, hlen]
          rw [hstep]
          obtain ⟨h1b, h2b⟩ := foldl_paths_notTouched cfg fs H chunk b.2 s1 p hnp h1 h2
          exact ih _ (fun b2 hb2 => hb b2 (List.mem_cons_of_mem _ hb2)) h1b h2b
  obtain ⟨h1, h2⟩ := main s.size_index s (fun b hb hin => hsmall b.1 b.2 hb hin)
    hcalls hgroups
  refine ⟨h1, ?_⟩
  intro d qs h
  rw [detect_hash_index_eq, List.mem_filter] at h
  exact h2 d qs h.1

/-! ### C2 amended: at most one successful hash per inode key -/

/-- Whether a hasher invocation at path p counts as a successful hash
of the inode key k: the path stats to key k and its hash succeeds. -/
def succCall (cfg : Config) (fs : FS) (H : List Nat → String) (chunk : Nat)
    (k : Nat × Nat) (p : String) : Bool :=
  decide (statKey cfg fs p = some k) && (hash_file H fs p chunk).isSome

/-- Per-key accounting invariant: at most one successful hasher call
per inode key so far, and the cache holds a digest for a key as soon as
a successful call for it happened. -/
def OncePerKey (cfg : Config) (fs : FS) (H : List Nat → String) (chunk : Nat)
    (s1 : MState) : Prop :=
  ∀ k, ((s1.hasherCalls.filter (succCall cfg fs H chunk k)).length ≤ 1) ∧
    (1 ≤ (s1.hasherCalls.filter (succCall cfg fs H chunk k)).length →
      pyGet s1.inode_hash k ≠ none)

lemma processPath_once (cfg : Config) (fs : FS) (H : List Nat → String) (chunk : Nat)
    (s1 : MState) (q : String) (h : OncePerKey cfg fs H chunk s1) :
    OncePerKey cfg fs H chunk (processPath cfg fs H chunk s1 q) := by
  cases hstat : fs.stat cfg.followSymlinks q with
  | none =>
      simp only [processPath, hstat]
      exact h
  | some st =>
      have hkeyq : statKey cfg fs q = some (st.dev, st.ino) := by
        simp [statKey, hstat]
      cases hget : pyGet s1.inode_hash (st.dev, st.ino) with
      | some d =>
          by_cases hd : d = ""
          · subst hd
            simp only [processPath, hstat, hget]
            exact h
          · simp only [processPath, hstat, hget, if_neg hd]
            exact h
      | none =>
          have hcore : ∀ k,
              (((s1.hasherCalls ++ [q]).filter (succCall cfg fs H chunk k)).length ≤ 1) ∧
              (1 ≤ ((s1.hasherCalls ++ [q]).filter (succCall cfg fs H chunk k)).length →
                pyGet (dset s1.inode_hash (st.dev, st.ino)
                  (hash_file H fs q chunk)) k ≠ none) := by
            intro k
            obtain ⟨hle, him⟩ := h k
            by_cases hk : k = (st.dev, st.ino)
            · subst hk
              have hold : (s1.hasherCalls.filter (succCall cfg fs H chunk
                  (st.dev, st.ino))).length = 0 := by
                by_contra hne2
                exact (him (Nat.pos_of_ne_zero hne2)) hget
              constructor
              · rw [List.filter_append, List.length_append, hold]
                simpa using List.length_filter_le _ [q]
              · intro h1
                cases hdg : hash_file H fs q chunk with
                | none =>
                    exfalso
                    rw [List.filter_append, List.length_append, hold] at h1
                    have hq : succCall cfg fs H chunk (st.dev, st.ino) q = false := by
                      simp [succCall, hdg]
                    simp [List.filter_cons, hq] at h1
                | some d =>
                    unfold pyGet
                    rw [dget_dset_self]
                    simp
            · constructor
              · have hq : succCall cfg fs H chunk k q = false := by
                  have hfalse : ((st.dev, st.ino) = k) = False :=
                    eq_false (fun hh => hk hh.symm)
                  simp [succCall, hkeyq, hfalse]
                rw [List.filter_append, List.length_append]
                simp [List.filter_cons, hq]
                exact hle
              · intro h1
                have hq : succCall cfg fs H chunk k q = false := by
                  have hfalse : ((st.dev, st.ino) = k) = False :=
                    eq_false (fun hh => hk hh.symm)
                  simp [succCall, hkeyq, hfalse]
                have h1b : 1 ≤ (s1.hasherCalls.filter (succCall cfg fs H chunk k)).length := by
                  rw [List.filter_append, List.length_append] at h1
                  simpa [List.filter_cons, hq] using h1
                have hrest := him h1b
                unfold pyGet at hrest ⊢
                rw [dget_dset_ne _ _ _ _ hk]
                exact hrest
          cases hdg : hash_file H fs q chunk with
          | none =>
              simp only [processPath, hstat, hget, hdg]
              intro k
              have := hcore k
              rwa [hdg] at this
          | some d =>
              by_cases hd : d = ""
              · subst hd
                simp only [processPath, hstat, hget, hdg]
                intro k
                have := hcore k
                rwa [hdg] at this
              · simp only [processPath, hstat, hget, hdg, if_neg hd]
                intro k
                have := hcore k
                rwa [hdg] at this

lemma foldl_paths_once (cfg : Config) (fs : FS) (H : List Nat → String) (chunk : Nat)
    (L : List String) (s1 : MState) (h : OncePerKey cfg fs H chunk s1) :
    OncePerKey cfg fs H chunk (L.foldl (processPath cfg fs H chunk) s1) := by
  induction L generalizing s1 with
  | nil => exact h
  | cons q L ih =>
      rw [List.foldl_cons]
      exact ih _ (processPath_once cfg fs H chunk s1 q h)

lemma foldl_buckets_once (cfg : Config) (fs : FS) (H : List Nat → String) (chunk : Nat)
    (bs : List (Nat × List String)) (s1 : MState) (h : OncePerKey cfg fs H chunk s1) :
    OncePerKey cfg fs H chunk (bs.foldl (processBucket cfg fs H chunk) s1) := by
  induction bs generalizing s1 with
  | nil => exact h
  | cons b bs ih =>
      rw [List.foldl_cons]
      by_cases hlen : b.2.length < 2
      · have hstep : processBucket cfg fs H chunk s1 b = s1 := by
          simp [processBucket, hlen]
        rw [hstep]
        exact ih s1 h
      · have hstep : processBucket cfg fs H chunk s1 b
            = b.2.foldl (processPath cfg fs H chunk) s1 := by
          simp [processBucket, hlen]
        rw [hstep]
        exact ih _ (foldl_paths_once cfg fs H chunk b.2 s1 h)

/-- C2 amended: starting from an empty inode cache and call log, each
inode key sees at most one successful hasher invocation in a run; a
failed hash stores None, indistinguishable from an absent key, so only
failing attempts can repeat. -/
theorem inode_hashed_at_most_once_on_success (cfg : Config) (fs : FS)
    (H : List Nat → String) (chunk : Nat) (s : MState)
    (hL : s.hasherCalls = []) :
    ∀ k, ((detect_duplicates cfg fs H chunk s).hasherCalls.filter
        (succCall cfg fs H chunk k)).length ≤ 1 := by
  have h0 : OncePerKey cfg fs H chunk s := by
    intro k
    rw [hL]
    refine ⟨by simp, ?_⟩
    intro h1
    simp at h1
  intro k
  exact (foldl_buckets_once cfg fs H chunk s.size_index s h0 k).1

/-! ### C3 amended: groups persist into the next run -/

/-- Extension order on digest indices: every group of the first is
present in the second with the same key, possibly with more members
appended at its end. -/
def Ext (a b : List (String × List String)) : Prop :=
  ∀ d qs, (d, qs) ∈ a → ∃ r, (d, qs ++ r) ∈ b

lemma Ext_refl (a : List (String × List String)) : Ext a a :=
  fun _ qs h => ⟨[], by simpa⟩

lemma Ext_trans {a b c : List (String × List String)} (h1 : Ext a b) (h2 : Ext b c) :
    Ext a c := by
  intro d qs h
  obtain ⟨r1, hr1⟩ := h1 d qs h
  obtain ⟨r2, hr2⟩ := h2 d (qs ++ r1) hr1
  exact ⟨r1 ++ r2, by rw [← List.append_assoc]; exact hr2⟩

lemma processPath_Ext (cfg : Config) (fs : FS) (H : List Nat → String) (chunk : Nat)
    (s1 : MState) (q : String) :
    Ext s1.hash_index (processPath cfg fs H chunk s1 q).hash_index := by
  cases hstat : fs.stat cfg.followSymlinks q with
  | none =>
      simp only [processPath, hstat]
      exact Ext_refl _
  | some st =>
      cases hget : pyGet s1.inode_hash (st.dev, st.ino) with
      | some d =>
          by_cases hd : d = ""
          · subst hd
            simp only [processPath, hstat, hget]
            exact Ext_refl _
          · simp only [processPath, hstat, hget, if_neg hd]
            exact fun d0 qs h => dAppend_extends h d q
      | none =>
          cases hdg : hash_file H fs q chunk with
          | none =>
              simp only [processPath, hstat, hget, hdg]
              exact Ext_refl _
          | some d =>
              by_cases hd : d = ""
              · subst hd
                simp only [processPath, hstat, hget, hdg]
                exact Ext_refl _
              · simp only [processPath, hstat, hget, hdg, if_neg hd]
                exact fun d0 qs h => dAppend_extends h d q

lemma foldl_paths_Ext (cfg : Config) (fs : FS) (H : List Nat → String) (chunk : Nat)
    (L : List String) (s1 : MState) :
    Ext s1.hash_index ((L.foldl (processPath cfg fs H chunk) s1).hash_index) := by
  induction L generalizing s1 with
  | nil => exact Ext_refl _
  | cons q L ih =>
      rw [List.foldl_cons]
      exact Ext_trans (processPath_Ext cfg fs H chunk s1 q) (ih _)

lemma foldl_buckets_Ext (cfg : Config) (fs : FS) (H : List Nat → String) (chunk : Nat)
    (bs : List (Nat × List String)) (s1 : MState) :
    Ext s1.hash_index ((bs.foldl (processBucket cfg fs H chunk) s1).hash_index) := by
  induction bs generalizing s1 with
  | nil => exact Ext_refl _
  | cons b bs ih =>
      rw [List.foldl_cons]
      by_cases hlen : b.2.length < 2
      · have hstep : processBucket cfg fs H chunk s1 b = s1 := by
          simp [processBucket, hlen]
        rw [hstep]
        exact ih s1
      · have hstep : processBucket cfg fs H chunk s1 b
            = b.2.foldl (processPath cfg fs H chunk) s1 := by
          simp [processBucket, hlen]
        rw [hstep]
        exact Ext_trans (foldl_paths_Ext cfg fs H chunk b.2 s1) (ih _)

/-- C3 amended: the indices are process-global and are not reset per
run, so any digest group with two or more members that is present when
detect_duplicates starts persists, possibly extended, into the output
of that next run. -/
theorem persisting_group_extended (cfg : Config) (fs : FS) (H : List Nat → String)
    (chunk : Nat) (s : MState) (d : String) (ps : List String)
    (hmem : (d, ps) ∈ s.hash_index) (hlen : 2 ≤ ps.length) :
    ∃ rest, (d, ps ++ rest) ∈ (detect_duplicates cfg fs H chunk s).hash_index := by
  obtain ⟨r, hr⟩ := foldl_buckets_Ext cfg fs H chunk s.size_index s d ps hmem
  refine ⟨r, ?_⟩
  rw [detect_hash_index_eq]
  refine List.mem_filter.mpr ⟨hr, ?_⟩
  simp only [decide_eq_true_eq, List.length_append]
  omega

/-! ### C10: a zero chunk size hashes every readable file to the empty digest -/

lemma hash_file_zero (fs : FS) (H : List Nat → String) (p : String)
    (h : (fs.read p).isSome) : hash_file H fs p 0 = some (H []) := by
  obtain ⟨c, hc⟩ := Option.isSome_iff_exists.mp h
  simp [hash_file, hc, readGo]

/-- The inode cache holds only the empty-input digest. -/
def Cache10 (H : List Nat → String) (m : List ((Nat × Nat) × Option String)) : Prop :=
  ∀ k v, dget m k = some v → v = some (H [])

lemma fold10_paths (cfg : Config) (fs : FS) (H : List Nat → String) (hne : H [] ≠ "")
    (L done : List String) (s1 : MState)
    (hstats : ∀ q ∈ L, (fs.stat cfg.followSymlinks q).isSome ∧ (fs.read q).isSome)
    (hcache : Cache10 H s1.inode_hash)
    (hhi : s1.hash_index = if done = [] then [] else [(H [], done)]) :
    Cache10 H ((L.foldl (processPath cfg fs H 0) s1).inode_hash) ∧
    (L.foldl (processPath cfg fs H 0) s1).hash_index
      = (if done ++ L = [] then [] else [(H [], done ++ L)]) := by
  induction L generalizing done s1 with
  | nil =>
      simpa using ⟨hcache, hhi⟩
  | cons q L ih =>
      obtain ⟨hstq, hrdq⟩ := hstats q (List.mem_cons_self _ _)
      obtain ⟨st, hstat⟩ := Option.isSome_iff_exists.mp hstq
      have hdg : hash_file H fs q 0 = some (H []) := hash_file_zero fs H q hrdq
      rw [List.foldl_cons]
      have hstep : Cache10 H ((processPath cfg fs H 0 s1 q).inode_hash) ∧
          (processPath cfg fs H 0 s1 q).hash_index
            = (if done ++ [q] = [] then [] else [(H [], done ++ [q])]) := by
        have hne2 : ¬ (done ++ [q] = []) := by simp
        cases hget : pyGet s1.inode_hash (st.dev, st.ino) with
        | some d =>
            have hd : d = H [] := by
              have hv := hcache _ _ (pyGet_eq_some hget)
              exact Option.some.inj hv
            subst hd
            simp only [processPath, hstat, hget, if_neg hne]
            refine ⟨hcache, ?_⟩
            rw [hhi, if_neg hne2]
            by_cases hdone : done = []
            · subst hdone
              simp [dAppend]
            · rw [if_neg hdone]
              simp [dAppend]
        | none =>
            simp only [processPath, hstat, hget, hdg, if_neg hne]
            constructor
            · intro k v hv
              by_cases hk : k = (st.dev, st.ino)
              · subst hk
                rw [dget_dset_self] at hv
                exact (Option.some.inj hv).symm
              · rw [dget_dset_ne _ _ _ _ hk] at hv
                exact hcache _ _ hv
            · rw [hhi, if_neg hne2]
              by_cases hdone : done = []
              · subst hdone
                simp [dAppend]
              · rw [if_neg hdone]
                simp [dAppend]
      obtain ⟨hc1, hh1⟩ := hstep
      have hrest := ih (done ++ [q]) (processPath cfg fs H 0 s1 q)
        (fun q2 hq2 => hstats q2 (List.mem_cons_of_mem _ hq2)) hc1 hh1
      simpa [List.append_assoc] using hrest

lemma fold10_buckets (cfg : Config) (fs : FS) (H : List Nat → String) (hne : H [] ≠ "")
    (bs : List (Nat × List String)) (done : List String) (s1 : MState)
    (hstats : ∀ q ∈ bigOf bs, (fs.stat cfg.followSymlinks q).isSome ∧ (fs.read q).isSome)
    (hcache : Cache10 H s1.inode_hash)
    (hhi : s1.hash_index = if done = [] then [] else [(H [], done)]) :
    Cache10 H ((bs.foldl (processBucket cfg fs H 0) s1).inode_hash) ∧
    (bs.foldl (processBucket cfg fs H 0) s1).hash_index
      = (if done ++ bigOf bs = [] then [] else [(H [], done ++ bigOf bs)]) := by
  induction bs generalizing done s1 with
  | nil =>
      simpa [bigOf] using ⟨hcache, hhi⟩
  | cons b bs ih =>
      rw [List.foldl_cons]
      by_cases hlen : b.2.length < 2
      · have hstep : processBucket cfg fs H 0 s1 b = s1 := by
          simp [processBucket, hlen]
        have hbig : bigOf (b :: bs) = bigOf bs := by
          have h2 : ¬ (2 ≤ b.2.length) := not_le.mpr hlen
          simp [bigOf, List.filter_cons, h2]
        rw [hstep, hbig]
        exact ih done s1 (by rw [← hbig]; exact hstats) hcache hhi
      · have h2 : 2 ≤ b.2.length := not_lt.mp hlen
        have hbig : bigOf (b :: bs) = b.2 ++ bigOf bs := by
          simp [bigOf, List.filter_cons, h2]
        have hstep : processBucket cfg fs H 0 s1 b
            = b.2.foldl (processPath cfg fs H 0) s1 := by
          simp [processBucket, hlen]
        rw [hstep]
        obtain ⟨hc1, hh1⟩ := fold10_paths cfg fs H hne b.2 done s1
          (fun q hq => hstats q (by rw [hbig]; exact List.mem_append.mpr (Or.inl hq)))
          hcache hhi
        have hrest := ih (done ++ b.2) (b.2.foldl (processPath cfg fs H 0) s1)
          (fun q hq => hstats q (by rw [hbig]; exact List.mem_append.mpr (Or.inr hq)))
          hc1 hh1
        rw [hbig]
        simpa [List.append_assoc] using hrest

lemma bigOf_two_le (bs : List (Nat × List String)) (h : bigOf bs ≠ []) :
    2 ≤ (bigOf bs).length := by
  induction bs with
  | nil => simp [bigOf] at h
  | cons b bs ih =>
      by_cases h2 : 2 ≤ b.2.length
      · have hbig : bigOf (b :: bs) = b.2 ++ bigOf bs := by
          simp [bigOf, List.filter_cons, h2]
        rw [hbig, List.length_append]
        omega
      · have hbig : bigOf (b :: bs) = bigOf bs := by
          simp [bigOf, List.filter_cons, h2]
        rw [hbig] at h ⊢
        exact ih h

/-- C10: with a zero chunk size the read loop stops at the first
zero-length read, so hash_file returns the digest of empty input for
every readable file, and all candidates of buckets with two or more
members collapse into the single group keyed by that digest. -/
theorem zero_chunk_collapses_groups (cfg : Config) (fs : FS) (H : List Nat → String)
    (s : MState) (hI : s.inode_hash = []) (hH : s.hash_index = [])
    (hcand : ∀ q ∈ bigCand s, (fs.stat cfg.followSymlinks q).isSome ∧ (fs.read q).isSome)
    (hne : H [] ≠ "") :
    (∀ p c, fs.read p = some c → hash_file H fs p 0 = some (H [])) ∧
    (detect_duplicates cfg fs H 0 s).hash_index
      = (if bigCand s = [] then [] else [(H [], bigCand s)]) := by
  refine ⟨fun p c hc => hash_file_zero fs H p (by simp [hc]), ?_⟩
  have h0 : Cache10 H s.inode_hash := by
    rw [hI]
    intro k v hv
    simp [dget] at hv
  have hh0 : s.hash_index = if ([] : List String) = [] then [] else [(H [], [])] := by
    rw [hH]
    simp
  obtain ⟨_, hfin⟩ := fold10_buckets cfg fs H hne s.size_index [] s
    (by rw [← bigCand_eq_bigOf]; exact hcand) h0 hh0
  have haccum : (detectAccum cfg fs H 0 s).hash_index
      = (if bigCand s = [] then [] else [(H [], bigCand s)]) := by
    rw [bigCand_eq_bigOf]
    simpa using hfin
  rw [detect_hash_index_eq, haccum]
  by_cases hbc : bigCand s = []
  · simp [hbc]
  · have h2 : 2 ≤ (bigCand s).length := by
      rw [bigCand_eq_bigOf] at hbc ⊢
      exact bigOf_two_le _ hbc
    rw [if_neg hbc]
    simp [List.filter_cons, h2]

/-! ### Concrete fixtures used by the closed theorems -/

/-- A filesystem with no symlinks where every path resolves to itself
and no file exists; used for the path filter theorems. -/
def plainFS : FS :=
  { isSymlink := fun _ => false, resolve := fun p => some p,
    stat := fun _ _ => none, read := fun _ => none }

/-- A configuration whose only skip rule is one excluded absolute root. -/
def oneRootCfg (r : FPath) : Config :=
  { followSymlinks := false, skipNames := [], skipExts := [], skipAbs := [r] }

/-- A constant digest function (also a legitimate instance of the
configurable hash parameter for tests). -/
def constH : List Nat → String := fun _ => "d"

/-- Filesystem with exactly one regular file /r/a. -/
def fsOneReg : FS :=
  { isSymlink := fun _ => false, resolve := fun p => some p,
    stat := fun _ p => if p = "/r/a" then some ⟨true, 3, 0, 1, 1⟩ else none,
    read := fun _ => none }

/-- Directory listing of the root for the one-file scenario. -/
def treeOneReg : FTree := .node .nil ["a"]

/-- Filesystem where stat fails for /r/x (permission denied or vanished
entry) and /r/y is a regular file. -/
def fsStatFail : FS :=
  { isSymlink := fun _ => false, resolve := fun p => some p,
    stat := fun _ p => if p = "/r/y" then some ⟨true, 4, 0, 1, 2⟩ else none,
    read := fun _ => none }

/-- Directory listing of the root for the stat-failure scenario: the
failing entry first, a healthy regular file second. -/
def treeStatFail : FTree := .node .nil ["x", "y"]

/-- Filesystem where /r/a and /r/b are hardlinks to one unreadable
inode (1, 1): both stat fine with equal size, every read fails. -/
def fsHardBad : FS :=
  { isSymlink := fun _ => false, resolve := fun p => some p,
    stat := fun _ p => if p = "/r/a" then some ⟨true, 5, 0, 1, 1⟩
                       else if p = "/r/b" then some ⟨true, 5, 0, 1, 1⟩ else none,
    read := fun _ => none }

/-- Filesystem where /r/a and /r/b are distinct readable inodes with
identical one-byte content. -/
def fsTwin : FS :=
  { isSymlink := fun _ => false, resolve := fun p => some p,
    stat := fun _ p => if p = "/r/a" then some ⟨true, 5, 0, 1, 1⟩
                       else if p = "/r/b" then some ⟨true, 5, 0, 1, 2⟩ else none,
    read := fun p => if p = "/r/a" then some [7]
                     else if p = "/r/b" then some [7] else none }

/-- Module state after a walk found /r/a and /r/b sharing size 5: the
single size bucket the duplicate detector will consume. -/
def sBucketAB : MState := { initState with size_index := [(5, ["/r/a", "/r/b"])] }

/-! ### C9: the excluded-root check is component-wise containment -/

/-- C9: with a single excluded root r and the symlink, basename and
extension rules out of the way, is_skippable excludes a path exactly
when its resolved form equals r or extends r by whole components; in
particular /var/lib excludes /var/lib/x but not /var/libx, although
/var/lib is a string prefix of /var/libx. -/
theorem skip_root_check_is_componentwise :
    (∀ (fs : FS) (p rp r : FPath), fs.resolve p = some rp → fs.isSymlink p = false →
        (is_skippable (oneRootCfg r) fs p = true ↔
          rp = r ∨ ∃ rest, rest ≠ [] ∧ rp = r ++ rest))
    ∧ is_skippable (oneRootCfg ["var", "lib"]) plainFS ["var", "lib", "x"] = true
    ∧ is_skippable (oneRootCfg ["var", "lib"]) plainFS ["var", "libx"] = false
    ∧ (pathStr ["var", "lib"]).toList.isPrefixOf (pathStr ["var", "libx"]).toList = true := by
  refine ⟨?_, by decide, by decide, by decide⟩
  intro fs p rp r hres hsym
  simp only [is_skippable, oneRootCfg, hsym, Bool.and_false, Bool.and_true, Bool.not_false,
    Bool.false_eq_true, if_false, List.contains_nil, Bool.or_self, hres, List.any_cons,
    List.any_nil, Bool.or_false, compPre_iff]
  constructor
  · rintro ⟨t, ht⟩
    cases t with
    | nil => exact Or.inl (by simpa using ht)
    | cons x xs => exact Or.inr ⟨x :: xs, by simp, ht⟩
  · rintro (h | ⟨rest, _, hrest⟩)
    · exact ⟨[], by simpa using h⟩
    · exact ⟨rest, hrest⟩

/-- Witness for C9: the containment criterion applied at a concrete
excluded root and path. -/
theorem skip_root_check_is_componentwise_witness :
    is_skippable (oneRootCfg ["var", "lib"]) plainFS ["var", "lib", "q"] = true :=
  (skip_root_check_is_componentwise.1 plainFS ["var", "lib", "q"] ["var", "lib", "q"]
      ["var", "lib"] rfl rfl).mpr (Or.inr ⟨["q"], by decide, rfl⟩)

/-! ### C5: a missing or non-directory root aborts before any work -/

/-- C5: when the target root is missing or not a directory, the entry
point exits with status 2 before any traversal, leaving the module
state exactly as module import created it: the size index is empty and
the inventory holds no entry. -/
theorem bad_root_exits_before_any_work (cfg : Config) (fs : FS) (H : List Nat → String)
    (chunk : Nat) (root : FPath) (rt : RootFS)
    (h : rt = RootFS.missing ∨ rt = RootFS.notDir) :
    mainScan cfg fs H chunk root rt = ScanOutcome.exited 2 initState ∧
    initState.size_index = [] ∧ initState.inventory_data.getD [] = [] := by
  rcases h with h | h <;> subst h <;> exact ⟨rfl, rfl, rfl⟩

/-- Witness for C5 at a concrete missing root. -/
theorem bad_root_exits_before_any_work_witness :
    mainScan defaultCfg plainFS constH READ_CHUNK ["r"] RootFS.missing
      = ScanOutcome.exited 2 initState :=
  (bad_root_exits_before_any_work defaultCfg plainFS constH READ_CHUNK ["r"]
      RootFS.missing (Or.inl rfl)).1

/-! ### C1: the walk crashes instead of recording the first accepted file -/

/-- C1 (code bug evidence): on a root holding a single regular file the
file is accepted (not skipped, stat succeeds, S_ISREG holds), yet the
walk raises an uncaught NameError, because the module never initialises
the global inventory_data it appends to; the returned state equals the
import-time state, so no inventory row and no size-bucket entry is ever
produced. -/
theorem walk_crashes_on_first_accepted_file :
    walk_and_inventory defaultCfg fsOneReg ["r"] (RootFS.dir treeOneReg) initState
        = (initState, some PyErr.nameError)
    ∧ is_skippable defaultCfg fsOneReg ["r", "a"] = false
    ∧ fsOneReg.stat false "/r/a" = some ⟨true, 3, 0, 1, 1⟩ := by
  refine ⟨by decide, by decide, by decide⟩

/-! ### C4: a later healthy file still aborts the whole traversal -/

/-- C4 (code bug evidence): a stat failure on /r/x is indeed only
logged and skipped, but the traversal then aborts with the uncaught
NameError on the next accepted file /r/y, so the traversal of the
remaining entries does not complete. -/
theorem walk_skips_stat_failure_then_aborts :
    walk_and_inventory defaultCfg fsStatFail ["r"] (RootFS.dir treeStatFail) initState
      = ({ initState with warnings := ["/r/x"] }, some PyErr.nameError) := by
  decide

/-! ### C2 counterexample: a failed hash is retried for the same inode -/

/-- C2 counterexample: /r/a and /r/b share inode key (1, 1) and reading
the inode fails; the first hash attempt stores None, which the cache
lookup cannot distinguish from an absent key, so the Hasher is invoked
again for the second path: two invocations for one InodeKey in one run. -/
theorem hasher_invoked_twice_for_one_inode :
    (detect_duplicates defaultCfg fsHardBad constH READ_CHUNK sBucketAB).hasherCalls
        = ["/r/a", "/r/b"]
    ∧ statKey defaultCfg fsHardBad "/r/a" = some (1, 1)
    ∧ statKey defaultCfg fsHardBad "/r/b" = some (1, 1) := by
  refine ⟨by decide, by decide, by decide⟩

/-- Filesystem where /r/a and /r/b are hardlinks to one readable inode. -/
def fsHardGood : FS :=
  { isSymlink := fun _ => false, resolve := fun p => some p,
    stat := fun _ p => if p = "/r/a" then some ⟨true, 5, 0, 1, 1⟩
                       else if p = "/r/b" then some ⟨true, 5, 0, 1, 1⟩ else none,
    read := fun _ => some [7] }

/-- Filesystem where /r/p stats fine but its data is unreadable at hash
time (permission revoked between listing and hashing) and /r/q is a
healthy distinct inode of the same size. -/
def fsPQ : FS :=
  { isSymlink := fun _ => false, resolve := fun p => some p,
    stat := fun _ p => if p = "/r/p" then some ⟨true, 5, 0, 1, 3⟩
                       else if p = "/r/q" then some ⟨true, 5, 0, 1, 4⟩ else none,
    read := fun p => if p = "/r/q" then some [7] else none }

/-- Size bucket pairing /r/p and /r/q. -/
def sBucketPQ : MState := { initState with size_index := [(5, ["/r/p", "/r/q"])] }

/-- State whose only size bucket has a single member. -/
def sOneSmall : MState := { initState with size_index := [(5, ["/r/a"])] }

/-- State carrying a duplicate group left over from an earlier run. -/
def sSeeded : MState := { initState with hash_index := [("d", ["/x", "/y"])] }

lemma fsTwin_coherent : InodeCoherent defaultCfg fsTwin := by
  intro p q k hp hq
  by_cases hpa : p = "/r/a" <;> by_cases hpb : p = "/r/b" <;>
    by_cases hqa : q = "/r/a" <;> by_cases hqb : q = "/r/b" <;>
      simp_all [statKey, fsTwin, defaultCfg]

lemma fsPQ_coherent : InodeCoherent defaultCfg fsPQ := by
  intro p q k hp hq
  by_cases hpa : p = "/r/p" <;> by_cases hpb : p = "/r/q" <;>
    by_cases hqa : q = "/r/p" <;> by_cases hqb : q = "/r/q" <;>
      simp_all [statKey, fsPQ, defaultCfg] <;>
        exact absurd (hp.trans hq.symm) (by decide)

/-! ### C3 counterexample: structures persist across runs -/

/-- C3 counterexample: running duplicate detection twice over the same
unchanged size bucket (as a second scan in the same process would,
since the indices are module globals that nothing resets) yields a
different duplicate grouping the second time: the persisting group is
extended with every candidate again. -/
theorem second_run_extends_persisting_groups :
    (detect_duplicates defaultCfg fsTwin constH READ_CHUNK sBucketAB).hash_index
        = [("d", ["/r/a", "/r/b"])]
    ∧ (detect_duplicates defaultCfg fsTwin constH READ_CHUNK
          (detect_duplicates defaultCfg fsTwin constH READ_CHUNK sBucketAB)).hash_index
        = [("d", ["/r/a", "/r/b", "/r/a", "/r/b"])]
    ∧ ([("d", ["/r/a", "/r/b", "/r/a", "/r/b"])] : List (String × List String))
        ≠ [("d", ["/r/a", "/r/b"])] := by
  refine ⟨by decide, by decide, by decide⟩

/-! ### Witnesses for the general theorems -/

/-- Witness for C6 at a concrete bucket of two equal files. -/
theorem retained_groups_wellformed_witness :
    (allPaths ((detect_duplicates defaultCfg fsTwin constH READ_CHUNK
        sBucketAB).hash_index)).Nodup :=
  (retained_groups_wellformed defaultCfg fsTwin constH READ_CHUNK sBucketAB rfl rfl
    fsTwin_coherent (by decide)
    (by
      rintro p sz q sz2 ⟨ps, hmem, _⟩ ⟨ps2, hmem2, _⟩ _ _
      simp [sBucketAB, initState] at hmem hmem2
      rw [hmem.1, hmem2.1])).2.2.2

/-- Witness for C7 at a concrete unreadable candidate. -/
theorem hash_failure_excluded_not_fatal_witness :
    hash_file constH fsPQ "/r/p" READ_CHUNK = none :=
  (hash_failure_excluded_not_fatal defaultCfg fsPQ constH READ_CHUNK sBucketPQ "/r/p"
    rfl rfl fsPQ_coherent (by decide)).1

/-- Witness for C8 at a concrete singleton bucket. -/
theorem small_buckets_never_hashed_nor_grouped_witness :
    "/r/a" ∉ (detect_duplicates defaultCfg plainFS constH READ_CHUNK
        sOneSmall).hasherCalls :=
  (small_buckets_never_hashed_nor_grouped defaultCfg plainFS constH READ_CHUNK
    sOneSmall "/r/a"
    (by
      intro sz ps hmem hp
      simp [sOneSmall, initState] at hmem
      rw [hmem.2]
      decide)
    (by simp [sOneSmall, initState])
    (by intro d qs h; simp [sOneSmall, initState] at h)).1

/-- Witness for the amended C2 at two readable hardlinks. -/
theorem inode_hashed_at_most_once_on_success_witness :
    ((detect_duplicates defaultCfg fsHardGood constH READ_CHUNK
        sBucketAB).hasherCalls.filter
      (succCall defaultCfg fsHardGood constH READ_CHUNK (1, 1))).length ≤ 1 :=
  inode_hashed_at_most_once_on_success defaultCfg fsHardGood constH READ_CHUNK
    sBucketAB rfl (1, 1)

/-- Witness for the amended C3 at a concrete pre-seeded group. -/
theorem persisting_group_extended_witness :
    ∃ rest, ("d", ["/x", "/y"] ++ rest) ∈
      (detect_duplicates defaultCfg plainFS constH READ_CHUNK sSeeded).hash_index :=
  persisting_group_extended defaultCfg plainFS constH READ_CHUNK sSeeded "d"
    ["/x", "/y"] (by simp [sSeeded, initState]) (by decide)

/-- Witness for C10 at a concrete bucket of two readable files. -/
theorem zero_chunk_collapses_groups_witness :
    (detect_duplicates defaultCfg fsTwin constH 0 sBucketAB).hash_index
      = (if bigCand sBucketAB = [] then [] else [(constH [], bigCand sBucketAB)]) :=
  (zero_chunk_collapses_groups defaultCfg fsTwin constH sBucketAB rfl rfl
    (by decide) (by decide)).2

end VAL1S
